import Mathlib

/-!
Verification development for the markdown utilities of `src/language-markdown/utils.js`:
the text segmenter `splitText` with its helper `appendNode`, the ordered-list
heuristic `hasGitDiffFriendlyOrderedList` with its helper `getOrderedListItemInfo`,
the immutable tree mapper `mapAst`, and the `isAutolink` predicate.

JavaScript strings are modelled as `List Char` (one entry per Unicode scalar value);
fallible JavaScript code (member access on `undefined`, destructuring a failed regex
match) is modelled with `Option`.
-/

/-- The word kinds of the segmenter: `KIND_NON_CJK`, `KIND_CJ_LETTER`,
`KIND_K_LETTER`, `KIND_CJK_PUNCTUATION` in the source. -/
inductive WordKind where
  | nonCjk
  | cjLetter
  | kLetter
  | cjkPunctuation
deriving DecidableEq

/-- A token produced by `splitText`: either a whitespace node (value `" "`, `"\n"`,
or the zero-width `""`) or a word node carrying its kind and punctuation flags. -/
inductive TextNode where
  | whitespace (value : List Char)
  | word (value : List Char) (kind : WordKind)
      (hasLeadingPunctuation : Bool) (hasTrailingPunctuation : Bool)
deriving DecidableEq

/-- The character class of the splitting regex `/([\t\n ]+)/` in `splitText`. -/
def isSplitWhitespace (c : Char) : Bool :=
  c = '\t' || c = '\n' || c = ' '

/-- Model of `text.split(/([\t\n ]+)/)`: the alternating list of
non-whitespace chunks (even positions) and captured maximal whitespace runs
(odd positions).  As with the JavaScript `split`, the result always starts and
ends with a (possibly empty) non-whitespace chunk. -/
def splitOnWhitespace : List Char → List (List Char)
  | [] => [[]]
  | c :: cs =>
    let rest := splitOnWhitespace cs
    if isSplitWhitespace c then
      match rest with
      | [] :: w :: rest2 => [] :: (c :: w) :: rest2
      | _ => [] :: [c] :: rest
    else
      match rest with
      | [] => [[c]]
      | t :: rest2 => (c :: t) :: rest2

/-- Model of `token.split(new RegExp("(" + cjkPattern + ")"))`: the alternating
list of non-CJK chunks (even positions) and captured single CJK characters
(odd positions), for a given CJK classifier. -/
def splitOnCjk (isCjk : Char → Bool) : List Char → List (List Char)
  | [] => [[]]
  | c :: cs =>
    if isCjk c then
      [] :: [c] :: splitOnCjk isCjk cs
    else
      match splitOnCjk isCjk cs with
      | [] => [[c]]
      | t :: rest => (c :: t) :: rest

/-- The full-width space character U+3000 tested by `/　/` in `appendNode`. -/
def fullWidthSpace : Char := Char.ofNat 0x3000

/-- The `kind` field of a node; `none` for whitespace nodes, whose `kind`
is `undefined` in the source. -/
def TextNode.kindOf : TextNode → Option WordKind
  | .whitespace _ => none
  | .word _ k _ _ => some k

/-- The `value` field of a node. -/
def TextNode.valueOf : TextNode → List Char
  | .whitespace v => v
  | .word v _ _ _ => v

/-- Whether a node is a word node (`node.type === "word"`). -/
def TextNode.isWordNode : TextNode → Bool
  | .word .. => true
  | .whitespace _ => false

/-- Whether a node is a whitespace node (`node.type === "whitespace"`). -/
def TextNode.isWhitespaceNode : TextNode → Bool
  | .whitespace _ => true
  | .word .. => false

/-- The helper `isBetween(kind1, kind2)` of `appendNode`: the last node has one
of the two kinds and the new node the other. -/
def isBetween (lastNode node : TextNode) (kind1 kind2 : WordKind) : Bool :=
  (lastNode.kindOf = some kind1 && node.kindOf = some kind2) ||
  (lastNode.kindOf = some kind2 && node.kindOf = some kind1)

/-- The helper `appendNode` of `splitText`: pushes `node`, preceded by a
zero-width whitespace node when the previous node is a word, the two kinds are
not `{KIND_NON_CJK, KIND_CJK_PUNCTUATION}`, and neither value contains U+3000. -/
def appendNode (nodes : List TextNode) (node : TextNode) : List TextNode :=
  match nodes.getLast? with
  | some lastNode =>
    if lastNode.isWordNode
        && !isBetween lastNode node .nonCjk .cjkPunctuation
        && !(lastNode.valueOf.contains fullWidthSpace
              || node.valueOf.contains fullWidthSpace) then
      nodes ++ [.whitespace [], node]
    else
      nodes ++ [node]
  | none => nodes ++ [node]

/-- The non-CJK word node built in the inner loop of `splitText`:
punctuation flags are computed from the first and last character. -/
def mkNonCjkWord (isPunct : Char → Bool) (t : List Char) : TextNode :=
  .word t .nonCjk
    (match t.head? with | some c => isPunct c | none => false)
    (match t.getLast? with | some c => isPunct c | none => false)

/-- The single-CJK-character word node built in the inner loop of `splitText`. -/
def mkCjkWord (isK isPunct : Char → Bool) (t : List Char) : TextNode :=
  if t.any isPunct then
    .word t .cjkPunctuation true true
  else
    .word t (if t.any isK then .kLetter else .cjLetter) false false

/-- The inner loop of `splitText` over `innerTokens` with its running index `j`
and the total count `m = innerTokens.length`: boundary empty chunks are skipped,
even chunks become non-CJK words when non-empty, odd chunks become CJK words. -/
def processInner (isK isPunct : Char → Bool) (m : Nat) :
    Nat → List (List Char) → List TextNode → List TextNode
  | _, [], nodes => nodes
  | j, t :: rest, nodes =>
    if (j = 0 || j = m - 1) && t = [] then
      processInner isK isPunct m (j + 1) rest nodes
    else if j % 2 = 0 then
      if t = [] then
        processInner isK isPunct m (j + 1) rest nodes
      else
        processInner isK isPunct m (j + 1) rest
          (appendNode nodes (mkNonCjkWord isPunct t))
    else
      processInner isK isPunct m (j + 1) rest
        (appendNode nodes (mkCjkWord isK isPunct t))

/-- The outer loop of `splitText` over `tokens` with its running index `i` and
the total count `n = tokens.length`: odd chunks push a whitespace node, boundary
empty even chunks are skipped, other even chunks go through the CJK split and
the inner loop. -/
def processTokens (isCjk isK isPunct : Char → Bool) (n : Nat) :
    Nat → List (List Char) → List TextNode → List TextNode
  | _, [], nodes => nodes
  | i, token :: rest, nodes =>
    if i % 2 = 1 then
      processTokens isCjk isK isPunct n (i + 1) rest
        (nodes ++ [.whitespace (if token.contains '\n' then ['\n'] else [' '])])
    else if (i = 0 || i = n - 1) && token = [] then
      processTokens isCjk isK isPunct n (i + 1) rest nodes
    else
      let innerTokens := splitOnCjk isCjk token
      processTokens isCjk isK isPunct n (i + 1) rest
        (processInner isK isPunct innerTokens.length 0 innerTokens nodes)

/-- `splitText`, parameterized by the three classifier tables
(`cjkPattern`, `kRegex`, `punctuationRegex` in the source). -/
def splitTextWith (isCjk isK isPunct : Char → Bool) (text : List Char) :
    List TextNode :=
  let tokens := splitOnWhitespace text
  processTokens isCjk isK isPunct tokens.length 0 tokens []

/-- Modelled from the spec: the "is CJK character" classifier table
(`cjkPattern` from `constants.evaluate.js`, which is not part of this source
tree), as a union of Unicode ranges covering the main CJK blocks: radicals,
Kangxi, CJK symbols and punctuation, kana, Hangul jamo and syllables, CJK
unified ideographs and extension A, compatibility ideographs, and the
full-width and half-width forms. -/
def isCjkChar (c : Char) : Bool :=
  let n := c.toNat
  (0x1100 ≤ n && n ≤ 0x11FF) ||
  (0x2E80 ≤ n && n ≤ 0x303F) ||
  (0x3040 ≤ n && n ≤ 0x30FF) ||
  (0x3130 ≤ n && n ≤ 0x318F) ||
  (0x3400 ≤ n && n ≤ 0x4DBF) ||
  (0x4E00 ≤ n && n ≤ 0x9FFF) ||
  (0xAC00 ≤ n && n ≤ 0xD7A3) ||
  (0xF900 ≤ n && n ≤ 0xFAFF) ||
  (0xFF00 ≤ n && n ≤ 0xFFEF)

/-- Modelled from the spec: the "is Korean character" classifier table
(`kRegex` from `constants.evaluate.js`, which is not part of this source
tree), as the Hangul Unicode ranges: jamo, compatibility jamo, extended jamo,
syllables, and half-width jamo. -/
def isKoreanChar (c : Char) : Bool :=
  let n := c.toNat
  (0x1100 ≤ n && n ≤ 0x11FF) ||
  (0x3130 ≤ n && n ≤ 0x318F) ||
  (0xA960 ≤ n && n ≤ 0xA97F) ||
  (0xAC00 ≤ n && n ≤ 0xD7FB) ||
  (0xFFA0 ≤ n && n ≤ 0xFFDC)

/-- Modelled from the spec: the "is punctuation character" classifier table
(`punctuationPattern` from `constants.evaluate.js`, which is not part of this
source tree), as Unicode ranges covering ASCII punctuation, CJK symbols and
punctuation (excluding the ideographic space U+3000, a space separator), the
Katakana middle dot, and full-width punctuation. -/
def isPunctuationChar (c : Char) : Bool :=
  let n := c.toNat
  (0x21 ≤ n && n ≤ 0x2F) ||
  (0x3A ≤ n && n ≤ 0x40) ||
  (0x5B ≤ n && n ≤ 0x60) ||
  (0x7B ≤ n && n ≤ 0x7E) ||
  (0x3001 ≤ n && n ≤ 0x303F) ||
  n = 0x30FB ||
  (0xFF01 ≤ n && n ≤ 0xFF0F) ||
  (0xFF1A ≤ n && n ≤ 0xFF20) ||
  (0xFF3B ≤ n && n ≤ 0xFF40) ||
  (0xFF5B ≤ n && n ≤ 0xFF65)

/-- `splitText` with the modelled classifier tables. -/
def splitText (text : String) : List TextNode :=
  splitTextWith isCjkChar isKoreanChar isPunctuationChar text.data

/-- The chunk list produced by the whitespace split, viewed from absolute
index `i`: odd positions hold non-empty runs of split whitespace, even
positions hold whitespace-free chunks which are non-empty except possibly at
the two ends of the whole list. -/
def ChunkShape : Nat → List (List Char) → Prop
  | _, [] => True
  | i, t :: rest =>
    (if i % 2 = 1 then t ≠ [] ∧ ∀ c ∈ t, isSplitWhitespace c = true
     else (∀ c ∈ t, isSplitWhitespace c = false) ∧ (i ≠ 0 → rest ≠ [] → t ≠ [])) ∧
    ChunkShape (i + 1) rest

/-- The chunk list produced by the CJK split, viewed from index `j`: odd
positions hold single CJK characters, even positions hold CJK-free chunks. -/
def CjkShape (isCjk : Char → Bool) : Nat → List (List Char) → Prop
  | _, [] => True
  | j, t :: rest =>
    (if j % 2 = 1 then ∃ c, t = [c] ∧ isCjk c = true
     else ∀ c ∈ t, isCjk c = false) ∧
    CjkShape isCjk (j + 1) rest

theorem chunkShape_congr (l : List (List Char)) :
    ∀ i j, i % 2 = j % 2 → i ≠ 0 → j ≠ 0 → ChunkShape i l → ChunkShape j l := by
  induction l with
  | nil => intro i j _ _ _ _; trivial
  | cons t rest ih =>
    intro i j hp hi hj h
    obtain ⟨h1, h2⟩ := h
    refine ⟨?_, ih (i + 1) (j + 1) (by omega) (by omega) (by omega) h2⟩
    by_cases hc : i % 2 = 1
    · have hc' : j % 2 = 1 := by omega
      simpa [hc'] using (by simpa [hc] using h1)
    · have hc' : ¬ j % 2 = 1 := by omega
      have h1' := by simpa [hc] using h1
      simp only [hc', if_false]
      exact ⟨h1'.1, fun _ => h1'.2 hi⟩

theorem cjkShape_congr (isCjk : Char → Bool) (l : List (List Char)) :
    ∀ i j, i % 2 = j % 2 → CjkShape isCjk i l → CjkShape isCjk j l := by
  induction l with
  | nil => intro i j _ _; trivial
  | cons t rest ih =>
    intro i j hp h
    obtain ⟨h1, h2⟩ := h
    refine ⟨?_, ih (i + 1) (j + 1) (by omega) h2⟩
    by_cases hc : i % 2 = 1
    · have hc' : j % 2 = 1 := by omega
      simpa [hc'] using (by simpa [hc] using h1)
    · have hc' : ¬ j % 2 = 1 := by omega
      simpa [hc'] using (by simpa [hc] using h1)

theorem splitOnWhitespace_ne_nil (l : List Char) : splitOnWhitespace l ≠ [] := by
  cases l with
  | nil => simp [splitOnWhitespace]
  | cons c cs =>
    simp only [splitOnWhitespace]
    split
    · split <;> simp
    · split <;> simp

theorem splitOnWhitespace_flatten (l : List Char) :
    (splitOnWhitespace l).flatten = l := by
  induction l with
  | nil => simp [splitOnWhitespace]
  | cons c cs ih =>
    simp only [splitOnWhitespace]
    split
    · split
      next w rest2 heq =>
        rw [heq] at ih
        simp only [List.flatten_cons, List.nil_append] at ih ⊢
        simp [← ih]
      next =>
        simpa using ih
    · split
      next heq => exact absurd heq (splitOnWhitespace_ne_nil cs)
      next t rest2 heq =>
        rw [heq] at ih
        simp only [List.flatten_cons] at ih ⊢
        simp [← ih]

theorem chunkShape_cons_odd {i : Nat} (h1 : i % 2 = 1) {t : List Char}
    {rest : List (List Char)} (ht : t ≠ [])
    (hall : ∀ c ∈ t, isSplitWhitespace c = true)
    (hr : ChunkShape (i + 1) rest) : ChunkShape i (t :: rest) := by
  exact ⟨by rw [if_pos h1]; exact ⟨ht, hall⟩, hr⟩

theorem chunkShape_cons_even {i : Nat} (h1 : ¬ i % 2 = 1) {t : List Char}
    {rest : List (List Char)}
    (hno : ∀ c ∈ t, isSplitWhitespace c = false)
    (hne : i ≠ 0 → rest ≠ [] → t ≠ [])
    (hr : ChunkShape (i + 1) rest) : ChunkShape i (t :: rest) := by
  exact ⟨by rw [if_neg h1]; exact ⟨hno, hne⟩, hr⟩

theorem chunkShape_odd_elim {i : Nat} (h1 : i % 2 = 1) {t : List Char}
    {rest : List (List Char)} (h : ChunkShape i (t :: rest)) :
    (t ≠ [] ∧ ∀ c ∈ t, isSplitWhitespace c = true) ∧ ChunkShape (i + 1) rest := by
  obtain ⟨ha, hb⟩ := h
  rw [if_pos h1] at ha
  exact ⟨ha, hb⟩

theorem chunkShape_even_elim {i : Nat} (h1 : ¬ i % 2 = 1) {t : List Char}
    {rest : List (List Char)} (h : ChunkShape i (t :: rest)) :
    ((∀ c ∈ t, isSplitWhitespace c = false) ∧ (i ≠ 0 → rest ≠ [] → t ≠ [])) ∧
      ChunkShape (i + 1) rest := by
  obtain ⟨ha, hb⟩ := h
  rw [if_neg h1] at ha
  exact ⟨ha, hb⟩

theorem splitOnWhitespace_chunkShape (l : List Char) :
    ChunkShape 0 (splitOnWhitespace l) := by
  induction l with
  | nil => exact chunkShape_cons_even (by omega) (by simp) (by simp) trivial
  | cons c cs ih =>
    simp only [splitOnWhitespace]
    split
    next hws =>
      split
      next w rest2 heq =>
        rw [heq] at ih
        obtain ⟨-, hw, hrest⟩ := ih
        rw [if_pos (by omega : (0 + 1) % 2 = 1)] at hw
        refine chunkShape_cons_even (by omega) (by simp) (by simp) ?_
        refine chunkShape_cons_odd (by omega) (by simp) ?_ hrest
        intro x hx
        rcases List.mem_cons.mp hx with h | h
        · subst h; exact hws
        · exact hw.2 x h
      next hno =>
        obtain ⟨t0, rest', heq⟩ : ∃ t0 rest', splitOnWhitespace cs = t0 :: rest' := by
          cases h : splitOnWhitespace cs with
          | nil => exact absurd h (splitOnWhitespace_ne_nil cs)
          | cons a b => exact ⟨a, b, rfl⟩
        rw [heq] at ih
        obtain ⟨ht0, hrest⟩ := (chunkShape_even_elim (by omega) ih)
        refine chunkShape_cons_even (by omega) (by simp) (by simp) ?_
        refine chunkShape_cons_odd (by omega) (by simp) (by simp [hws]) ?_
        rw [heq]
        refine chunkShape_cons_even (by omega) ht0.1 ?_
          (chunkShape_congr rest' 1 3 (by omega) (by omega) (by omega) hrest)
        intro _ hr ht0nil
        subst ht0nil
        cases rest' with
        | nil => exact hr rfl
        | cons w rest2 => exact hno w rest2 (by rw [heq])
    next hws =>
      split
      next heq => exact absurd heq (splitOnWhitespace_ne_nil cs)
      next t rest2 heq =>
        rw [heq] at ih
        obtain ⟨ht, hrest⟩ := (chunkShape_even_elim (by omega) ih)
        refine chunkShape_cons_even (by omega) ?_ (by omega) hrest
        intro x hx
        rcases List.mem_cons.mp hx with h | h
        · subst h; simpa using hws
        · exact ht.1 x h

theorem splitOnCjk_ne_nil (isCjk : Char → Bool) (l : List Char) :
    splitOnCjk isCjk l ≠ [] := by
  cases l with
  | nil => simp [splitOnCjk]
  | cons c cs =>
    simp only [splitOnCjk]
    split
    · simp
    · split <;> simp

theorem splitOnCjk_flatten (isCjk : Char → Bool) (l : List Char) :
    (splitOnCjk isCjk l).flatten = l := by
  induction l with
  | nil => simp [splitOnCjk]
  | cons c cs ih =>
    simp only [splitOnCjk]
    split
    · simp [ih]
    · split
      next heq => exact absurd heq (splitOnCjk_ne_nil isCjk cs)
      next t rest heq =>
        rw [heq] at ih
        simp only [List.flatten_cons] at ih ⊢
        simp [← ih]

theorem splitOnCjk_shape (isCjk : Char → Bool) (l : List Char) :
    CjkShape isCjk 0 (splitOnCjk isCjk l) := by
  induction l with
  | nil => exact ⟨by simp, trivial⟩
  | cons c cs ih =>
    simp only [splitOnCjk]
    split
    next hc =>
      exact ⟨by simp, ⟨⟨c, rfl, hc⟩,
        cjkShape_congr isCjk _ 0 2 (by omega) ih⟩⟩
    next hc =>
      split
      next heq => exact absurd heq (splitOnCjk_ne_nil isCjk cs)
      next t rest heq =>
        rw [heq] at ih
        obtain ⟨ht, hrest⟩ := ih
        have ht' := by simpa using ht
        refine ⟨?_, hrest⟩
        simp only [if_neg (by omega : ¬ (0 : Nat) % 2 = 1)]
        intro x hx
        rcases List.mem_cons.mp hx with h | h
        · subst h; simpa using hc
        · exact ht' x h

/-- The zero-width whitespace node pushed by `appendNode`. -/
def zeroWidthWhitespace : TextNode := .whitespace []

/-- Relation for claim C1: two adjacent nodes are not both whitespace nodes. -/
def NotBothWs (a b : TextNode) : Prop :=
  ¬ (a.isWhitespaceNode = true ∧ b.isWhitespaceNode = true)

/-- Relation for claim C10: a zero-width whitespace node only ever sits next
to word nodes. -/
def ZwRel (a b : TextNode) : Prop :=
  (a = zeroWidthWhitespace → b.isWordNode = true) ∧
  (b = zeroWidthWhitespace → a.isWordNode = true)

/-- Per-node well-formedness for claim C6: CJK-kind words are single
characters, non-CJK words are non-empty and contain no CJK character. -/
def WordOk (isCjk : Char → Bool) : TextNode → Prop
  | .whitespace _ => True
  | .word v k _ _ =>
    (k ≠ .nonCjk → v.length = 1) ∧ (k = .nonCjk → v ≠ [] ∧ ∀ c ∈ v, isCjk c = false)

/-- The concatenation of all `value` fields of a token sequence. -/
def concatValues (nodes : List TextNode) : List Char :=
  (nodes.map TextNode.valueOf).flatten

theorem appendNode_cases (nodes : List TextNode) (node : TextNode) :
    appendNode nodes node = nodes ++ [node] ∨
      (appendNode nodes node = nodes ++ [zeroWidthWhitespace, node] ∧
        ∃ lastNode, nodes.getLast? = some lastNode ∧ lastNode.isWordNode = true) := by
  unfold appendNode
  split
  next lastNode h =>
    split
    next hc =>
      refine Or.inr ⟨rfl, lastNode, h, ?_⟩
      have := (Bool.and_eq_true _ _).mp hc
      exact (Bool.and_eq_true _ _).mp this.1 |>.1
    next hc => exact Or.inl rfl
  next => exact Or.inl rfl

theorem appendNode_getLast (nodes : List TextNode) (node : TextNode) :
    (appendNode nodes node).getLast? = some node := by
  rcases appendNode_cases nodes node with h | ⟨h, -⟩
  · rw [h, List.getLast?_concat]
  · rw [h, List.getLast?_append_of_ne_nil _ (by simp)]
    rfl

theorem appendNode_head (nodes : List TextNode) (node : TextNode) :
    (appendNode nodes node).head? = nodes.head? ∨
      (nodes = [] ∧ appendNode nodes node = [node]) := by
  cases nodes with
  | nil =>
    rcases appendNode_cases [] node with h | ⟨h, lastNode, hl, -⟩
    · exact Or.inr ⟨rfl, by simpa using h⟩
    · simp at hl
  | cons a l =>
    rcases appendNode_cases (a :: l) node with h | ⟨h, -⟩ <;>
      exact Or.inl (by rw [h, List.head?_append_of_ne_nil _ (by simp)])

theorem TextNode.not_ws_of_word {n : TextNode} (h : n.isWordNode = true) :
    n.isWhitespaceNode = false := by
  cases n with
  | whitespace a => simp [TextNode.isWordNode] at h
  | word a b c d => rfl

theorem TextNode.ne_zw_of_word {n : TextNode} (h : n.isWordNode = true) :
    n ≠ zeroWidthWhitespace := by
  intro hcon
  rw [hcon] at h
  exact absurd h (by simp [zeroWidthWhitespace, TextNode.isWordNode])

theorem appendNode_chain_notBothWs (nodes : List TextNode) (node : TextNode)
    (hword : node.isWordNode = true) (h : List.Chain' NotBothWs nodes) :
    List.Chain' NotBothWs (appendNode nodes node) := by
  rcases appendNode_cases nodes node with heq | ⟨heq, lastNode, hl, hw⟩
  · rw [heq]
    refine List.chain'_append.mpr ⟨h, List.chain'_singleton _, ?_⟩
    intro x _ y hy
    simp only [List.head?_cons, Option.mem_def, Option.some.injEq] at hy
    subst hy
    intro hcon
    rw [TextNode.not_ws_of_word hword] at hcon
    exact absurd hcon.2 (by simp)
  · rw [heq]
    refine List.chain'_append.mpr ⟨h, ?_, ?_⟩
    · refine List.chain'_cons.mpr ⟨?_, List.chain'_singleton _⟩
      intro hcon
      rw [TextNode.not_ws_of_word hword] at hcon
      exact absurd hcon.2 (by simp)
    · intro x hx y hy
      simp only [Option.mem_def] at hx hy
      rw [hl] at hx
      injection hx with hx
      subst hx
      simp only [List.head?_cons, Option.some.injEq] at hy
      subst hy
      intro hcon
      rw [TextNode.not_ws_of_word hw] at hcon
      exact absurd hcon.1 (by simp)

theorem appendNode_chain_zwRel (nodes : List TextNode) (node : TextNode)
    (hword : node.isWordNode = true) (h : List.Chain' ZwRel nodes) :
    List.Chain' ZwRel (appendNode nodes node) := by
  rcases appendNode_cases nodes node with heq | ⟨heq, lastNode, hl, hw⟩
  · rw [heq]
    refine List.chain'_append.mpr ⟨h, List.chain'_singleton _, ?_⟩
    intro x _ y hy
    simp only [List.head?_cons, Option.mem_def, Option.some.injEq] at hy
    subst hy
    constructor
    · intro _; exact hword
    · intro hcon; exact absurd hcon (TextNode.ne_zw_of_word hword)
  · rw [heq]
    refine List.chain'_append.mpr ⟨h, ?_, ?_⟩
    · refine List.chain'_cons.mpr ⟨⟨?_, ?_⟩, List.chain'_singleton _⟩
      · intro _; exact hword
      · intro hcon; exact absurd hcon (TextNode.ne_zw_of_word hword)
    · intro x hx y hy
      simp only [Option.mem_def] at hx hy
      rw [hl] at hx
      injection hx with hx
      subst hx
      simp only [List.head?_cons, Option.some.injEq] at hy
      subst hy
      exact ⟨fun hcon => absurd hcon (TextNode.ne_zw_of_word hw), fun _ => hw⟩

theorem appendNode_concatValues (nodes : List TextNode) (node : TextNode) :
    concatValues (appendNode nodes node) = concatValues nodes ++ node.valueOf := by
  rcases appendNode_cases nodes node with heq | ⟨heq, -⟩ <;>
    simp [heq, concatValues, zeroWidthWhitespace, TextNode.valueOf]

theorem appendNode_mem (nodes : List TextNode) (node x : TextNode)
    (hx : x ∈ appendNode nodes node) :
    x ∈ nodes ∨ x = node ∨ x = zeroWidthWhitespace := by
  rcases appendNode_cases nodes node with heq | ⟨heq, -⟩ <;> rw [heq] at hx
  · rcases List.mem_append.mp hx with h | h
    · exact Or.inl h
    · simp only [List.mem_singleton] at h
      exact Or.inr (Or.inl h)
  · rcases List.mem_append.mp hx with h | h
    · exact Or.inl h
    · rcases List.mem_cons.mp h with h | h
      · exact Or.inr (Or.inr h)
      · simp only [List.mem_singleton] at h
        exact Or.inr (Or.inl h)

theorem mkNonCjkWord_isWord (isPunct : Char → Bool) (t : List Char) :
    (mkNonCjkWord isPunct t).isWordNode = true := rfl

theorem mkNonCjkWord_valueOf (isPunct : Char → Bool) (t : List Char) :
    (mkNonCjkWord isPunct t).valueOf = t := rfl

theorem mkCjkWord_isWord (isK isPunct : Char → Bool) (t : List Char) :
    (mkCjkWord isK isPunct t).isWordNode = true := by
  unfold mkCjkWord
  split
  · rfl
  · rfl

theorem mkCjkWord_valueOf (isK isPunct : Char → Bool) (t : List Char) :
    (mkCjkWord isK isPunct t).valueOf = t := by
  unfold mkCjkWord
  split
  · rfl
  · rfl

theorem wordOk_mkNonCjkWord (isCjk isPunct : Char → Bool) (t : List Char)
    (ht : t ≠ []) (hno : ∀ c ∈ t, isCjk c = false) :
    WordOk isCjk (mkNonCjkWord isPunct t) := by
  exact ⟨fun hk => absurd rfl hk, fun _ => ⟨ht, hno⟩⟩

theorem wordOk_mkCjkWord (isCjk isK isPunct : Char → Bool) (c : Char) :
    WordOk isCjk (mkCjkWord isK isPunct [c]) := by
  unfold mkCjkWord
  split
  · exact ⟨fun _ => rfl, fun h => by simp at h⟩
  · split
    · exact ⟨fun _ => rfl, fun h => by simp at h⟩
    · exact ⟨fun _ => rfl, fun h => by simp at h⟩

theorem appendNode_invariants (isCjk : Char → Bool) (nodes : List TextNode)
    (node : TextNode) (hword : node.isWordNode = true)
    (hwok : WordOk isCjk node)
    (h1 : List.Chain' NotBothWs nodes)
    (h2 : List.Chain' ZwRel nodes)
    (h3 : nodes.head? ≠ some zeroWidthWhitespace)
    (h5 : ∀ x ∈ nodes, WordOk isCjk x) :
    List.Chain' NotBothWs (appendNode nodes node) ∧
    List.Chain' ZwRel (appendNode nodes node) ∧
    (appendNode nodes node).head? ≠ some zeroWidthWhitespace ∧
    (appendNode nodes node).getLast? ≠ some zeroWidthWhitespace ∧
    (∀ x ∈ appendNode nodes node, WordOk isCjk x) ∧
    concatValues (appendNode nodes node) = concatValues nodes ++ node.valueOf := by
  refine ⟨appendNode_chain_notBothWs nodes node hword h1,
    appendNode_chain_zwRel nodes node hword h2, ?_, ?_, ?_,
    appendNode_concatValues nodes node⟩
  · rcases appendNode_head nodes node with hh | ⟨-, hh⟩
    · rw [hh]; exact h3
    · rw [hh]
      intro hcon
      injection hcon with hcon
      exact absurd hcon (TextNode.ne_zw_of_word hword)
  · rw [appendNode_getLast]
    intro hcon
    injection hcon with hcon
    exact absurd hcon (TextNode.ne_zw_of_word hword)
  · intro x hx
    rcases appendNode_mem nodes node x hx with h | h | h
    · exact h5 x h
    · rw [h]; exact hwok
    · rw [h]; trivial

theorem processInner_spec (isCjk isK isPunct : Char → Bool) (m : Nat)
    (ics : List (List Char)) :
    ∀ (j : Nat) (nodes : List TextNode),
      CjkShape isCjk j ics →
      List.Chain' NotBothWs nodes →
      List.Chain' ZwRel nodes →
      nodes.head? ≠ some zeroWidthWhitespace →
      nodes.getLast? ≠ some zeroWidthWhitespace →
      (∀ x ∈ nodes, WordOk isCjk x) →
      List.Chain' NotBothWs (processInner isK isPunct m j ics nodes) ∧
      List.Chain' ZwRel (processInner isK isPunct m j ics nodes) ∧
      (processInner isK isPunct m j ics nodes).head? ≠ some zeroWidthWhitespace ∧
      (processInner isK isPunct m j ics nodes).getLast? ≠ some zeroWidthWhitespace ∧
      (∀ x ∈ processInner isK isPunct m j ics nodes, WordOk isCjk x) ∧
      concatValues (processInner isK isPunct m j ics nodes) =
        concatValues nodes ++ ics.flatten ∧
      (ics.flatten = [] → processInner isK isPunct m j ics nodes = nodes) ∧
      (ics.flatten ≠ [] → ∃ w, (processInner isK isPunct m j ics nodes).getLast? = some w ∧
        w.isWordNode = true) := by
  induction ics with
  | nil =>
    intro j nodes _ h1 h2 h3 h4 h5
    exact ⟨h1, h2, h3, h4, h5, by simp [processInner, concatValues], fun _ => rfl,
      fun hne => absurd rfl hne⟩
  | cons t rest ih =>
    intro j nodes hsh h1 h2 h3 h4 h5
    obtain ⟨hhead, htail⟩ := hsh
    simp only [processInner]
    split
    next hguard =>
      have ht : t = [] := by
        simp only [Bool.and_eq_true, decide_eq_true_eq] at hguard
        exact hguard.2
      subst ht
      simpa only [List.flatten_cons, List.nil_append] using
        ih (j + 1) nodes htail h1 h2 h3 h4 h5
    next hguard =>
      split
      next hj =>
        have hj0 : j % 2 = 0 := by simpa using hj
        have hno : ∀ c ∈ t, isCjk c = false := by
          rw [if_neg (by omega)] at hhead
          exact hhead
        split
        next htnil =>
          subst htnil
          simpa only [List.flatten_cons, List.nil_append] using
            ih (j + 1) nodes htail h1 h2 h3 h4 h5
        next htne =>
          have htne' : t ≠ [] := by simpa using htne
          obtain ⟨k1, k2, k3, k4, k5, k6⟩ :=
            appendNode_invariants isCjk nodes (mkNonCjkWord isPunct t)
              (mkNonCjkWord_isWord isPunct t)
              (wordOk_mkNonCjkWord isCjk isPunct t htne' hno) h1 h2 h3 h5
          obtain ⟨g1, g2, g3, g4, g5, g6, g7, g8⟩ :=
            ih (j + 1) (appendNode nodes (mkNonCjkWord isPunct t)) htail k1 k2 k3 k4 k5
          refine ⟨g1, g2, g3, g4, g5, ?_, ?_, ?_⟩
          · rw [g6, k6, mkNonCjkWord_valueOf, List.flatten_cons, List.append_assoc]
          · intro hcon
            rw [List.flatten_cons] at hcon
            exact absurd (List.append_eq_nil.mp hcon).1 htne'
          · intro _
            by_cases hfl : rest.flatten = []
            · refine ⟨mkNonCjkWord isPunct t, ?_, mkNonCjkWord_isWord isPunct t⟩
              rw [g7 hfl, appendNode_getLast]
            · exact g8 hfl
      next hj =>
        have hodd : j % 2 = 1 := by
          have hj0 : ¬ j % 2 = 0 := by simpa using hj
          omega
        obtain ⟨c, htc, hcjk⟩ : ∃ c, t = [c] ∧ isCjk c = true := by
          rw [if_pos hodd] at hhead
          exact hhead
        subst htc
        obtain ⟨k1, k2, k3, k4, k5, k6⟩ :=
          appendNode_invariants isCjk nodes (mkCjkWord isK isPunct [c])
            (mkCjkWord_isWord isK isPunct [c])
            (wordOk_mkCjkWord isCjk isK isPunct c) h1 h2 h3 h5
        obtain ⟨g1, g2, g3, g4, g5, g6, g7, g8⟩ :=
          ih (j + 1) (appendNode nodes (mkCjkWord isK isPunct [c])) htail k1 k2 k3 k4 k5
        refine ⟨g1, g2, g3, g4, g5, ?_, ?_, ?_⟩
        · rw [g6, k6, mkCjkWord_valueOf, List.flatten_cons, List.append_assoc]
        · intro hcon
          rw [List.flatten_cons] at hcon
          exact absurd (List.append_eq_nil.mp hcon).1 (by simp)
        · intro _
          by_cases hfl : rest.flatten = []
          · refine ⟨mkCjkWord isK isPunct [c], ?_, mkCjkWord_isWord isK isPunct [c]⟩
            rw [g7 hfl, appendNode_getLast]
          · exact g8 hfl

theorem concatValues_append (l1 l2 : List TextNode) :
    concatValues (l1 ++ l2) = concatValues l1 ++ concatValues l2 := by
  simp [concatValues]

theorem whitespaceNode_ne_zw (token : List Char) :
    TextNode.whitespace (if token.contains '\n' then ['\n'] else [' ']) ≠
      zeroWidthWhitespace := by
  unfold zeroWidthWhitespace
  split <;> simp

theorem processTokens_spec (isCjk isK isPunct : Char → Bool) (n : Nat)
    (chunks : List (List Char)) :
    ∀ (i : Nat) (nodes : List TextNode),
      i + chunks.length = n →
      ChunkShape i chunks →
      List.Chain' NotBothWs nodes →
      List.Chain' ZwRel nodes →
      nodes.head? ≠ some zeroWidthWhitespace →
      nodes.getLast? ≠ some zeroWidthWhitespace →
      (∀ x ∈ nodes, WordOk isCjk x) →
      (i % 2 = 1 → ∀ w, nodes.getLast? = some w → w.isWordNode = true) →
      (i = 0 → nodes = []) →
      List.Chain' NotBothWs (processTokens isCjk isK isPunct n i chunks nodes) ∧
      List.Chain' ZwRel (processTokens isCjk isK isPunct n i chunks nodes) ∧
      (processTokens isCjk isK isPunct n i chunks nodes).head? ≠
        some zeroWidthWhitespace ∧
      (processTokens isCjk isK isPunct n i chunks nodes).getLast? ≠
        some zeroWidthWhitespace ∧
      (∀ x ∈ processTokens isCjk isK isPunct n i chunks nodes, WordOk isCjk x) ∧
      (concatValues (processTokens isCjk isK isPunct n i chunks nodes)).filter
          (fun c => !isSplitWhitespace c) =
        (concatValues nodes).filter (fun c => !isSplitWhitespace c) ++
          chunks.flatten.filter (fun c => !isSplitWhitespace c) := by
  induction chunks with
  | nil =>
    intro i nodes _ _ h1 h2 h3 h4 h5 _ _
    exact ⟨h1, h2, h3, h4, h5, by simp [processTokens]⟩
  | cons token rest ih =>
    intro i nodes hlen hsh h1 h2 h3 h4 h5 hlast hzero
    simp only [processTokens]
    split
    next hodd =>
      obtain ⟨htok, hall⟩ := (chunkShape_odd_elim hodd hsh).1
      have htail := (chunkShape_odd_elim hodd hsh).2
      have hlastw := hlast hodd
      have hwsne := whitespaceNode_ne_zw token
      have k1 : List.Chain' NotBothWs
          (nodes ++ [TextNode.whitespace (if token.contains '\n' then ['\n'] else [' '])]) := by
        refine List.chain'_append.mpr ⟨h1, List.chain'_singleton _, ?_⟩
        intro x hx y hy
        simp only [Option.mem_def] at hx
        simp only [List.head?_cons, Option.mem_def, Option.some.injEq] at hy
        subst hy
        intro hcon
        rw [TextNode.not_ws_of_word (hlastw x hx)] at hcon
        exact absurd hcon.1 (by simp)
      have k2 : List.Chain' ZwRel
          (nodes ++ [TextNode.whitespace (if token.contains '\n' then ['\n'] else [' '])]) := by
        refine List.chain'_append.mpr ⟨h2, List.chain'_singleton _, ?_⟩
        intro x hx y hy
        simp only [Option.mem_def] at hx
        simp only [List.head?_cons, Option.mem_def, Option.some.injEq] at hy
        subst hy
        exact ⟨fun hcon => absurd hcon (TextNode.ne_zw_of_word (hlastw x hx)),
          fun hcon => absurd hcon hwsne⟩
      have k3 : (nodes ++ [TextNode.whitespace
          (if token.contains '\n' then ['\n'] else [' '])]).head? ≠
            some zeroWidthWhitespace := by
        cases nodes with
        | nil =>
          simp only [List.nil_append, List.head?_cons]
          intro hcon
          injection hcon with hcon
          exact absurd hcon hwsne
        | cons a l =>
          rw [List.head?_append_of_ne_nil _ (by simp)]
          exact h3
      have k4 : (nodes ++ [TextNode.whitespace
          (if token.contains '\n' then ['\n'] else [' '])]).getLast? ≠
            some zeroWidthWhitespace := by
        rw [List.getLast?_concat]
        intro hcon
        injection hcon with hcon
        exact absurd hcon hwsne
      have k5 : ∀ x ∈ nodes ++ [TextNode.whitespace
          (if token.contains '\n' then ['\n'] else [' '])], WordOk isCjk x := by
        intro x hx
        rcases List.mem_append.mp hx with h | h
        · exact h5 x h
        · simp only [List.mem_singleton] at h
          rw [h]
          trivial
      obtain ⟨g1, g2, g3, g4, g5, g6⟩ :=
        ih (i + 1)
          (nodes ++ [TextNode.whitespace (if token.contains '\n' then ['\n'] else [' '])])
          (by simp at hlen ⊢; omega) htail k1 k2 k3 k4 k5
          (fun hp => absurd hp (by omega)) (fun hp => absurd hp (by omega))
      refine ⟨g1, g2, g3, g4, g5, ?_⟩
      rw [g6, concatValues_append, List.filter_append, List.flatten_cons,
        List.filter_append]
      have hwsfil : (concatValues
          [TextNode.whitespace (if token.contains '\n' then ['\n'] else [' '])]).filter
            (fun c => !isSplitWhitespace c) = [] := by
        simp only [concatValues, List.map_cons, List.map_nil, List.flatten_cons,
          List.flatten_nil, List.append_nil, TextNode.valueOf]
        split <;> rfl
      have htokfil : token.filter (fun c => !isSplitWhitespace c) = [] := by
        rw [List.filter_eq_nil_iff]
        intro a ha
        rw [hall a ha]
        simp
      rw [hwsfil, htokfil, List.append_nil, List.nil_append]
    next hodd =>
      split
      next hguard =>
        have hg : (i = 0 ∨ i = n - 1) ∧ token = [] := by
          simpa [Bool.and_eq_true, decide_eq_true_eq] using hguard
        obtain ⟨hi0n, htok⟩ := hg
        subst htok
        have htail := (chunkShape_even_elim hodd hsh).2
        rcases hi0n with hi0 | hin1
        · have hnil := hzero hi0
          subst hnil
          obtain ⟨g1, g2, g3, g4, g5, g6⟩ :=
            ih (i + 1) [] (by simp at hlen ⊢; omega) htail h1 h2 h3 h4 h5
              (fun _ w hw => by simp at hw) (fun hp => absurd hp (by omega))
          refine ⟨g1, g2, g3, g4, g5, ?_⟩
          rw [g6, List.flatten_cons, List.nil_append]
        · have hrest : rest = [] := by
            simp only [List.length_cons] at hlen
            have : rest.length = 0 := by omega
            exact List.length_eq_zero.mp this
          subst hrest
          refine ⟨?_, ?_, ?_, ?_, ?_, ?_⟩ <;>
            simp only [processTokens]
          · exact h1
          · exact h2
          · exact h3
          · exact h4
          · exact h5
          · simp
      next hguard =>
        have hshape := chunkShape_even_elim hodd hsh
        have htail := hshape.2
        have htok : token ≠ [] := by
          intro hcon
          subst hcon
          have hne : ¬ (i = 0 ∨ i = n - 1) := by
            intro hor
            exact hguard (by simp [hor])
          push_neg at hne
          have hrestne : rest ≠ [] → False := by
            intro hr
            exact (hshape.1.2 hne.1 hr) rfl
          have hrest : rest = [] := by
            by_cases hr : rest = []
            · exact hr
            · exact absurd (hrestne hr) (by simp)
          subst hrest
          simp only [List.length_cons, List.length_nil] at hlen
          exact hne.2 (by omega)
        obtain ⟨p1, p2, p3, p4, p5, p6, p7, p8⟩ :=
          processInner_spec isCjk isK isPunct (splitOnCjk isCjk token).length
            (splitOnCjk isCjk token) 0 nodes (splitOnCjk_shape isCjk token)
            h1 h2 h3 h4 h5
        have hfl : (splitOnCjk isCjk token).flatten = token :=
          splitOnCjk_flatten isCjk token
        obtain ⟨g1, g2, g3, g4, g5, g6⟩ :=
          ih (i + 1)
            (processInner isK isPunct (splitOnCjk isCjk token).length 0
              (splitOnCjk isCjk token) nodes)
            (by simp at hlen ⊢; omega) htail p1 p2 p3 p4 p5
            (fun _ w hw => by
              obtain ⟨w', hw', hword⟩ := p8 (by rw [hfl]; exact htok)
              rw [hw'] at hw
              injection hw with hw
              rw [← hw]
              exact hword)
            (fun hp => absurd hp (by omega))
        refine ⟨g1, g2, g3, g4, g5, ?_⟩
        rw [g6, p6, hfl, List.filter_append, List.flatten_cons, List.filter_append,
          List.append_assoc]

theorem splitTextWith_invariants (isCjk isK isPunct : Char → Bool)
    (text : List Char) :
    List.Chain' NotBothWs (splitTextWith isCjk isK isPunct text) ∧
    List.Chain' ZwRel (splitTextWith isCjk isK isPunct text) ∧
    (splitTextWith isCjk isK isPunct text).head? ≠ some zeroWidthWhitespace ∧
    (splitTextWith isCjk isK isPunct text).getLast? ≠ some zeroWidthWhitespace ∧
    (∀ x ∈ splitTextWith isCjk isK isPunct text, WordOk isCjk x) ∧
    (concatValues (splitTextWith isCjk isK isPunct text)).filter
        (fun c => !isSplitWhitespace c) =
      text.filter (fun c => !isSplitWhitespace c) := by
  obtain ⟨g1, g2, g3, g4, g5, g6⟩ :=
    processTokens_spec isCjk isK isPunct (splitOnWhitespace text).length
      (splitOnWhitespace text) 0 [] (Nat.zero_add _) (splitOnWhitespace_chunkShape text)
      List.chain'_nil List.chain'_nil (by simp) (by simp) (by simp)
      (fun hp => absurd hp (by omega)) (fun _ => rfl)
  refine ⟨g1, g2, g3, g4, g5, ?_⟩
  rw [show splitTextWith isCjk isK isPunct text =
      processTokens isCjk isK isPunct (splitOnWhitespace text).length 0
        (splitOnWhitespace text) [] from rfl,
    g6, splitOnWhitespace_flatten]
  simp [concatValues]

theorem splitOnWhitespace_allWs : ∀ (cs : List Char) (c : Char),
    (∀ x ∈ c :: cs, isSplitWhitespace x = true) →
    splitOnWhitespace (c :: cs) = [[], c :: cs, []] := by
  intro cs
  induction cs with
  | nil =>
    intro c hall
    have hc := hall c (by simp)
    simp [splitOnWhitespace, hc]
  | cons c2 cs2 ih =>
    intro c hall
    have hrec := ih c2 (fun x hx => hall x (List.mem_cons_of_mem c hx))
    have hc := hall c (by simp)
    rw [splitOnWhitespace, hrec]
    simp [hc]

theorem splitTextWith_allWs (isCjk isK isPunct : Char → Bool)
    (text : List Char) (hne : text ≠ [])
    (hall : ∀ c ∈ text, isSplitWhitespace c = true) :
    splitTextWith isCjk isK isPunct text =
      [.whitespace (if text.contains '\n' then ['\n'] else [' '])] := by
  cases text with
  | nil => exact absurd rfl hne
  | cons c cs =>
    show processTokens isCjk isK isPunct (splitOnWhitespace (c :: cs)).length 0
        (splitOnWhitespace (c :: cs)) [] = _
    rw [splitOnWhitespace_allWs cs c hall]
    simp [processTokens]

/-- C1: for every choice of classifier tables and every input string, the
token sequence returned by `splitText` never contains two consecutive
whitespace nodes (zero-width ones included), and a whitespace-only (non-empty)
input yields exactly one whitespace token. -/
theorem C1_splitText_no_adjacent_whitespace (isCjk isK isPunct : Char → Bool)
    (text : List Char) :
    List.Chain' NotBothWs (splitTextWith isCjk isK isPunct text) ∧
    (text ≠ [] → (∀ c ∈ text, isSplitWhitespace c = true) →
      splitTextWith isCjk isK isPunct text =
        [.whitespace (if text.contains '\n' then ['\n'] else [' '])]) :=
  ⟨(splitTextWith_invariants isCjk isK isPunct text).1,
    fun hne hall => splitTextWith_allWs isCjk isK isPunct text hne hall⟩

theorem C1_witness :
    List.Chain' NotBothWs
      (splitTextWith isCjkChar isKoreanChar isPunctuationChar
        [' ', 'a', '\t', '世']) ∧
    ([' ', '\n', '\t'] : List Char) ≠ [] ∧
    splitTextWith isCjkChar isKoreanChar isPunctuationChar [' ', '\n', '\t'] =
      [.whitespace ['\n']] := by
  refine ⟨(C1_splitText_no_adjacent_whitespace isCjkChar isKoreanChar
    isPunctuationChar [' ', 'a', '\t', '世']).1, by decide, ?_⟩
  have h := (C1_splitText_no_adjacent_whitespace isCjkChar isKoreanChar
    isPunctuationChar [' ', '\n', '\t']).2 (by decide) (by decide)
  rw [h]
  rfl

/-- C2 counterexample: `splitText "hello世界"` is not the four-token sequence
claimed by the spec, because a zero-width whitespace token is also inserted
between the tokens for 世 and 界. -/
theorem C2_counterexample :
    splitText "hello世界" ≠
      [.word ['h', 'e', 'l', 'l', 'o'] .nonCjk false false,
       .whitespace [],
       .word ['世'] .cjLetter false false,
       .word ['界'] .cjLetter false false] := by
  decide

/-- C2 (amended): `splitText "hello世界"` returns the five-token sequence
`[Word("hello", NonCjk), Whitespace(""), Word("世", CjLetter), Whitespace(""),
Word("界", CjLetter)]`: a zero-width whitespace token is inserted both between
"hello" and 世 and between 世 and 界. -/
theorem C2_amended :
    splitText "hello世界" =
      [.word ['h', 'e', 'l', 'l', 'o'] .nonCjk false false,
       .whitespace [],
       .word ['世'] .cjLetter false false,
       .whitespace [],
       .word ['界'] .cjLetter false false] := by
  decide

/-- C3: when a word node is appended directly after another word node, a
zero-width whitespace node is inserted between them if and only if the
unordered pair of their kinds is not exactly `{NonCjk, CjkPunctuation}` and
neither value contains the full-width space U+3000; in particular
`"foo。"` segments into two adjacent word tokens with nothing in between. -/
theorem C3_zero_width_insertion_rule :
    (∀ (nodes : List TextNode) (lv : List Char) (lk : WordKind) (la lb : Bool)
        (v : List Char) (k : WordKind) (a b : Bool),
      nodes.getLast? = some (.word lv lk la lb) →
      ((appendNode nodes (.word v k a b) =
          nodes ++ [.whitespace [], .word v k a b]) ↔
        ¬ (((lk = .nonCjk ∧ k = .cjkPunctuation) ∨
            (lk = .cjkPunctuation ∧ k = .nonCjk)) ∨
           lv.contains fullWidthSpace = true ∨
           v.contains fullWidthSpace = true)) ∧
      ((appendNode nodes (.word v k a b) = nodes ++ [.word v k a b]) ↔
        (((lk = .nonCjk ∧ k = .cjkPunctuation) ∨
          (lk = .cjkPunctuation ∧ k = .nonCjk)) ∨
         lv.contains fullWidthSpace = true ∨
         v.contains fullWidthSpace = true))) ∧
    splitText "foo。" =
      [.word ['f', 'o', 'o'] .nonCjk false false,
       .word ['。'] .cjkPunctuation true true] := by
  constructor
  · intro nodes lv lk la lb v k a b hlast
    have heq : appendNode nodes (TextNode.word v k a b) =
        if ((TextNode.word lv lk la lb).isWordNode
            && !isBetween (.word lv lk la lb) (.word v k a b) .nonCjk .cjkPunctuation
            && !((TextNode.word lv lk la lb).valueOf.contains fullWidthSpace
                  || (TextNode.word v k a b).valueOf.contains fullWidthSpace)) then
          nodes ++ [.whitespace [], .word v k a b]
        else nodes ++ [.word v k a b] := by
      unfold appendNode
      rw [hlast]
    have hbool : ((TextNode.word lv lk la lb).isWordNode
          && !isBetween (.word lv lk la lb) (.word v k a b) .nonCjk .cjkPunctuation
          && !((TextNode.word lv lk la lb).valueOf.contains fullWidthSpace
                || (TextNode.word v k a b).valueOf.contains fullWidthSpace)) = true ↔
        ¬ (((lk = .nonCjk ∧ k = .cjkPunctuation) ∨
            (lk = .cjkPunctuation ∧ k = .nonCjk)) ∨
           lv.contains fullWidthSpace = true ∨
           v.contains fullWidthSpace = true) := by
      simp [TextNode.isWordNode, isBetween, TextNode.kindOf, TextNode.valueOf,
        not_or, Bool.not_eq_true']
      tauto
    have hlenne : nodes ++ [TextNode.whitespace [], TextNode.word v k a b] ≠
        nodes ++ [TextNode.word v k a b] := by
      intro hcon
      have := congrArg List.length hcon
      simp at this
    by_cases hcond : (((lk = WordKind.nonCjk ∧ k = WordKind.cjkPunctuation) ∨
        (lk = WordKind.cjkPunctuation ∧ k = WordKind.nonCjk)) ∨
        lv.contains fullWidthSpace = true ∨ v.contains fullWidthSpace = true)
    · rw [heq, if_neg (fun hb => (hbool.mp hb) hcond)]
      constructor
      · exact ⟨fun h => absurd h.symm hlenne, fun h => absurd hcond h⟩
      · exact ⟨fun _ => hcond, fun _ => rfl⟩
    · rw [heq, if_pos (hbool.mpr hcond)]
      constructor
      · exact ⟨fun _ => hcond, fun _ => rfl⟩
      · exact ⟨fun h => absurd h hlenne, fun h => absurd h hcond⟩
  · decide

theorem C3_witness :
    appendNode [.word ['a'] .nonCjk false false] (.word ['b'] .nonCjk false false) =
      [.word ['a'] .nonCjk false false, .whitespace [],
       .word ['b'] .nonCjk false false] := by
  have h := (C3_zero_width_insertion_rule.1
    [.word ['a'] .nonCjk false false] ['a'] .nonCjk false false
    ['b'] .nonCjk false false rfl).1.mpr (by decide)
  exact h

/-- C5: for every classifier choice and every input string, concatenating the
values of all tokens returned by `splitText` preserves exactly the
non-whitespace characters of the input, in order. -/
theorem C5_splitText_roundtrip (isCjk isK isPunct : Char → Bool)
    (text : List Char) :
    (concatValues (splitTextWith isCjk isK isPunct text)).filter
        (fun c => !isSplitWhitespace c) =
      text.filter (fun c => !isSplitWhitespace c) :=
  (splitTextWith_invariants isCjk isK isPunct text).2.2.2.2.2

/-- Whether a node is a word node of kind `KIND_NON_CJK`. -/
def TextNode.isNonCjkWordNode : TextNode → Bool
  | .word _ .nonCjk _ _ => true
  | _ => false

/-- Relation for the maximality part of claim C6: two adjacent nodes are not
both `NonCjk` word nodes. -/
def NotBothNonCjk (a b : TextNode) : Prop :=
  ¬ (a.isNonCjkWordNode = true ∧ b.isNonCjkWordNode = true)

/-- The triple property for the maximality part of claim C6: the sequence
never contains a `NonCjk` word node, then a zero-width whitespace node, then
another `NonCjk` word node. -/
def NoZwSplitNonCjk : List TextNode → Prop
  | a :: b :: c :: rest =>
    ¬ (a.isNonCjkWordNode = true ∧ b = zeroWidthWhitespace ∧
        c.isNonCjkWordNode = true) ∧
    NoZwSplitNonCjk (b :: c :: rest)
  | _ => True

theorem isNonCjkWordNode_zw : zeroWidthWhitespace.isNonCjkWordNode = false := rfl

theorem isNonCjkWordNode_mkNonCjkWord (isPunct : Char → Bool) (t : List Char) :
    (mkNonCjkWord isPunct t).isNonCjkWordNode = true := rfl

theorem isNonCjkWordNode_mkCjkWord (isK isPunct : Char → Bool) (t : List Char) :
    (mkCjkWord isK isPunct t).isNonCjkWordNode = false := by
  unfold mkCjkWord
  split
  · rfl
  · split
    · rfl
    · rfl

theorem noZwSplitNonCjk_snoc1 (x : TextNode) :
    ∀ l, NoZwSplitNonCjk l → l.getLast? ≠ some zeroWidthWhitespace →
    NoZwSplitNonCjk (l ++ [x]) := by
  intro l
  induction l with
  | nil => intro _ _; trivial
  | cons a l2 ih =>
    intro h hlast
    cases l2 with
    | nil => trivial
    | cons b rest =>
      cases rest with
      | nil =>
        refine ⟨?_, trivial⟩
        rintro ⟨-, hzw, -⟩
        subst hzw
        exact hlast rfl
      | cons c rest2 =>
        obtain ⟨h1, h2⟩ := h
        exact ⟨h1, ih h2 (by rwa [List.getLast?_cons_cons] at hlast)⟩

theorem noZwSplitNonCjk_snoc2 (x : TextNode) :
    ∀ l, NoZwSplitNonCjk l →
      (∀ q, l.getLast? = some q →
        ¬ (q.isNonCjkWordNode = true ∧ x.isNonCjkWordNode = true)) →
      NoZwSplitNonCjk (l ++ [zeroWidthWhitespace, x]) := by
  intro l
  induction l with
  | nil => intro _ _; trivial
  | cons a l2 ih =>
    intro h hq
    cases l2 with
    | nil =>
      refine ⟨?_, trivial⟩
      rintro ⟨h1, -, h3⟩
      exact hq a rfl ⟨h1, h3⟩
    | cons b rest =>
      cases rest with
      | nil =>
        refine ⟨?_, ?_, trivial⟩
        · rintro ⟨-, -, h3⟩
          rw [isNonCjkWordNode_zw] at h3
          exact absurd h3 (by simp)
        · rintro ⟨h1, -, h3⟩
          exact hq b rfl ⟨h1, h3⟩
      | cons c rest2 =>
        obtain ⟨h1, h2⟩ := h
        exact ⟨h1, ih h2 (fun q hq2 =>
          hq q (by rwa [List.getLast?_cons_cons]))⟩

theorem appendNode_maximality (nodes : List TextNode) (node : TextNode)
    (hword : node.isWordNode = true)
    (h1 : List.Chain' NotBothNonCjk nodes)
    (h2 : NoZwSplitNonCjk nodes)
    (h3 : nodes.getLast? ≠ some zeroWidthWhitespace)
    (hcond : node.isNonCjkWordNode = true →
      ∀ q, nodes.getLast? = some q → q.isNonCjkWordNode = false) :
    List.Chain' NotBothNonCjk (appendNode nodes node) ∧
    NoZwSplitNonCjk (appendNode nodes node) ∧
    (appendNode nodes node).getLast? ≠ some zeroWidthWhitespace := by
  refine ⟨?_, ?_, ?_⟩
  · rcases appendNode_cases nodes node with heq | ⟨heq, -⟩
    · rw [heq]
      refine List.chain'_append.mpr ⟨h1, List.chain'_singleton _, ?_⟩
      intro q hq y hy
      simp only [Option.mem_def] at hq
      simp only [List.head?_cons, Option.mem_def, Option.some.injEq] at hy
      subst hy
      rintro ⟨p1, p2⟩
      rw [hcond p2 q hq] at p1
      exact absurd p1 (by simp)
    · rw [heq]
      refine List.chain'_append.mpr ⟨h1, ?_, ?_⟩
      · refine List.chain'_cons.mpr ⟨?_, List.chain'_singleton _⟩
        rintro ⟨p1, -⟩
        rw [isNonCjkWordNode_zw] at p1
        exact absurd p1 (by simp)
      · intro q hq y hy
        simp only [Option.mem_def] at hq
        simp only [List.head?_cons, Option.mem_def, Option.some.injEq] at hy
        subst hy
        rintro ⟨-, p2⟩
        rw [isNonCjkWordNode_zw] at p2
        exact absurd p2 (by simp)
  · rcases appendNode_cases nodes node with heq | ⟨heq, -⟩
    · rw [heq]
      exact noZwSplitNonCjk_snoc1 node nodes h2 h3
    · rw [heq]
      refine noZwSplitNonCjk_snoc2 node nodes h2 ?_
      rintro q hq ⟨p1, p2⟩
      rw [hcond p2 q hq] at p1
      exact absurd p1 (by simp)
  · rw [appendNode_getLast]
    intro hcon
    injection hcon with hcon
    exact absurd hcon (TextNode.ne_zw_of_word hword)

theorem processInner_maximality (isCjk isK isPunct : Char → Bool) (m : Nat)
    (ics : List (List Char)) :
    ∀ (j : Nat) (nodes : List TextNode),
      CjkShape isCjk j ics →
      List.Chain' NotBothNonCjk nodes →
      NoZwSplitNonCjk nodes →
      nodes.getLast? ≠ some zeroWidthWhitespace →
      (j % 2 = 0 → ∀ q, nodes.getLast? = some q →
        q.isNonCjkWordNode = false) →
      List.Chain' NotBothNonCjk (processInner isK isPunct m j ics nodes) ∧
      NoZwSplitNonCjk (processInner isK isPunct m j ics nodes) ∧
      (processInner isK isPunct m j ics nodes).getLast? ≠
        some zeroWidthWhitespace := by
  induction ics with
  | nil =>
    intro j nodes _ h1 h2 h3 _
    exact ⟨h1, h2, h3⟩
  | cons t rest ih =>
    intro j nodes hsh h1 h2 h3 hpar
    obtain ⟨hhead, htail⟩ := hsh
    simp only [processInner]
    split
    next hguard =>
      have ht : t = [] := by
        simp only [Bool.and_eq_true, decide_eq_true_eq] at hguard
        exact hguard.2
      subst ht
      by_cases hj : j % 2 = 1
      · rw [if_pos hj] at hhead
        obtain ⟨c, hc, -⟩ := hhead
        exact absurd hc (by simp)
      · exact ih (j + 1) nodes htail h1 h2 h3
          (fun hp => absurd hp (by omega))
    next hguard =>
      split
      next hj =>
        have hj0 : j % 2 = 0 := by simpa using hj
        split
        next htnil =>
          subst htnil
          exact ih (j + 1) nodes htail h1 h2 h3
            (fun hp => absurd hp (by omega))
        next htne =>
          obtain ⟨k1, k2, k3⟩ := appendNode_maximality nodes
            (mkNonCjkWord isPunct t) (mkNonCjkWord_isWord isPunct t)
            h1 h2 h3 (fun _ q hq => hpar hj0 q hq)
          exact ih (j + 1) _ htail k1 k2 k3
            (fun hp => absurd hp (by omega))
      next hj =>
        have hodd : j % 2 = 1 := by
          have hj0 : ¬ j % 2 = 0 := by simpa using hj
          omega
        obtain ⟨c, htc, -⟩ : ∃ c, t = [c] ∧ isCjk c = true := by
          rw [if_pos hodd] at hhead
          exact hhead
        subst htc
        obtain ⟨k1, k2, k3⟩ := appendNode_maximality nodes
          (mkCjkWord isK isPunct [c]) (mkCjkWord_isWord isK isPunct [c])
          h1 h2 h3
          (fun hnc => absurd hnc
            (by rw [isNonCjkWordNode_mkCjkWord]; simp))
        refine ih (j + 1) _ htail k1 k2 k3 ?_
        intro _ q hq
        rw [appendNode_getLast] at hq
        injection hq with hq
        rw [← hq]
        exact isNonCjkWordNode_mkCjkWord isK isPunct [c]

theorem processTokens_maximality (isCjk isK isPunct : Char → Bool) (n : Nat)
    (chunks : List (List Char)) :
    ∀ (i : Nat) (nodes : List TextNode),
      List.Chain' NotBothNonCjk nodes →
      NoZwSplitNonCjk nodes →
      nodes.getLast? ≠ some zeroWidthWhitespace →
      (i % 2 = 0 → ∀ q, nodes.getLast? = some q →
        q.isNonCjkWordNode = false) →
      List.Chain' NotBothNonCjk (processTokens isCjk isK isPunct n i chunks nodes) ∧
      NoZwSplitNonCjk (processTokens isCjk isK isPunct n i chunks nodes) ∧
      (processTokens isCjk isK isPunct n i chunks nodes).getLast? ≠
        some zeroWidthWhitespace := by
  induction chunks with
  | nil =>
    intro i nodes h1 h2 h3 _
    exact ⟨h1, h2, h3⟩
  | cons token rest ih =>
    intro i nodes h1 h2 h3 hpar
    simp only [processTokens]
    split
    next hodd =>
      have hwsne := whitespaceNode_ne_zw token
      have k1 : List.Chain' NotBothNonCjk (nodes ++
          [TextNode.whitespace (if token.contains '\n' then ['\n'] else [' '])]) := by
        refine List.chain'_append.mpr ⟨h1, List.chain'_singleton _, ?_⟩
        intro q hq y hy
        simp only [List.head?_cons, Option.mem_def, Option.some.injEq] at hy
        subst hy
        rintro ⟨-, p2⟩
        simp [TextNode.isNonCjkWordNode] at p2
      have k2 : NoZwSplitNonCjk (nodes ++
          [TextNode.whitespace (if token.contains '\n' then ['\n'] else [' '])]) :=
        noZwSplitNonCjk_snoc1 _ nodes h2 h3
      have k3 : (nodes ++
          [TextNode.whitespace (if token.contains '\n' then ['\n'] else [' '])]).getLast? ≠
            some zeroWidthWhitespace := by
        rw [List.getLast?_concat]
        intro hcon
        injection hcon with hcon
        exact absurd hcon hwsne
      refine ih (i + 1) _ k1 k2 k3 ?_
      intro _ q hq
      rw [List.getLast?_concat] at hq
      injection hq with hq
      rw [← hq]
      rfl
    next hodd =>
      split
      next hguard =>
        exact ih (i + 1) nodes h1 h2 h3 (fun hp => absurd hp (by omega))
      next hguard =>
        obtain ⟨k1, k2, k3⟩ := processInner_maximality isCjk isK isPunct
          (splitOnCjk isCjk token).length (splitOnCjk isCjk token) 0 nodes
          (splitOnCjk_shape isCjk token) h1 h2 h3
          (fun _ q hq => hpar (by omega) q hq)
        exact ih (i + 1) _ k1 k2 k3 (fun hp => absurd hp (by omega))

theorem splitTextWith_maximality (isCjk isK isPunct : Char → Bool)
    (text : List Char) :
    List.Chain' NotBothNonCjk (splitTextWith isCjk isK isPunct text) ∧
    NoZwSplitNonCjk (splitTextWith isCjk isK isPunct text) := by
  obtain ⟨g1, g2, -⟩ := processTokens_maximality isCjk isK isPunct
    (splitOnWhitespace text).length (splitOnWhitespace text) 0 []
    List.chain'_nil trivial (by simp) (fun _ q hq => by simp at hq)
  exact ⟨g1, g2⟩

/-- C6: every word token of CJK kind (`CjLetter`, `KLetter`, `CjkPunctuation`)
produced by `splitText` has a single-character value, and non-CJK characters
are grouped into maximal-run `NonCjk` word tokens: every `NonCjk` word token
is a non-empty run of characters none of which is CJK, no two `NonCjk` word
tokens are ever adjacent, and no two `NonCjk` word tokens are ever separated
by just a zero-width whitespace token — so each `NonCjk` token is flanked
only by real whitespace tokens, CJK-kind word tokens, or the ends of the
sequence, and its run cannot be extended. -/
theorem C6_cjk_singletons (isCjk isK isPunct : Char → Bool)
    (text : List Char) :
    (∀ (v : List Char) (k : WordKind) (p q : Bool),
      TextNode.word v k p q ∈ splitTextWith isCjk isK isPunct text →
      (k ≠ .nonCjk → v.length = 1) ∧
      (k = .nonCjk → v ≠ [] ∧ ∀ c ∈ v, isCjk c = false)) ∧
    List.Chain' NotBothNonCjk (splitTextWith isCjk isK isPunct text) ∧
    NoZwSplitNonCjk (splitTextWith isCjk isK isPunct text) :=
  ⟨fun _ _ _ _ hmem =>
    (splitTextWith_invariants isCjk isK isPunct text).2.2.2.2.1 _ hmem,
   (splitTextWith_maximality isCjk isK isPunct text).1,
   (splitTextWith_maximality isCjk isK isPunct text).2⟩

theorem C6_witness :
    TextNode.word ['世'] .cjLetter false false ∈
      splitTextWith isCjkChar isKoreanChar isPunctuationChar ['a', '世'] ∧
    (['世'] : List Char).length = 1 := by
  have hmem : TextNode.word ['世'] .cjLetter false false ∈
      splitTextWith isCjkChar isKoreanChar isPunctuationChar ['a', '世'] := by
    decide
  exact ⟨hmem, ((C6_cjk_singletons isCjkChar isKoreanChar isPunctuationChar
    ['a', '世']).1 ['世'] .cjLetter false false hmem).1 (by decide)⟩

/-- C10: every zero-width whitespace token in `splitText`'s output is strictly
interior: it is never the first or last token, and both of its neighbours are
word tokens (`ZwRel` states that along every adjacent pair, a zero-width
whitespace is only ever next to a word token). -/
theorem C10_zero_width_interior (isCjk isK isPunct : Char → Bool)
    (text : List Char) :
    (splitTextWith isCjk isK isPunct text).head? ≠ some zeroWidthWhitespace ∧
    (splitTextWith isCjk isK isPunct text).getLast? ≠ some zeroWidthWhitespace ∧
    List.Chain' ZwRel (splitTextWith isCjk isK isPunct text) :=
  ⟨(splitTextWith_invariants isCjk isK isPunct text).2.2.1,
   (splitTextWith_invariants isCjk isK isPunct text).2.2.2.1,
   (splitTextWith_invariants isCjk isK isPunct text).2.1⟩

/-- A source span: the `position.start.offset` and `position.end.offset`
recorded on every node by the external markdown parser. -/
structure SourceSpan where
  startOffset : Nat
  endOffset : Nat
deriving DecidableEq

/-- A parsed markdown AST node as observed by these utilities: a `type` tag, a
`value`, the `ordered` flag of list nodes, a source span, and an optional
`children` sequence (an absent `children` field is distinct from an empty
one, as `mapAst` treats them alike but `isAutolink` and
`hasGitDiffFriendlyOrderedList` dereference it). -/
inductive MdNode where
  | mk (type : String) (value : String) (ordered : Bool) (span : SourceSpan)
      (children : Option (List MdNode))

/-- The `type` tag of a node. -/
def MdNode.type : MdNode → String
  | .mk t _ _ _ _ => t

/-- The `value` of a node. -/
def MdNode.value : MdNode → String
  | .mk _ v _ _ _ => v

/-- The `ordered` flag of a node. -/
def MdNode.ordered : MdNode → Bool
  | .mk _ _ o _ _ => o

/-- The source span of a node. -/
def MdNode.span : MdNode → SourceSpan
  | .mk _ _ _ s _ => s

/-- The optional `children` sequence of a node. -/
def MdNode.children : MdNode → Option (List MdNode)
  | .mk _ _ _ _ c => c

/-- Replacing the `children` field (the assignment `newNode.children = …` of
`mapAst`). -/
def MdNode.setChildren : MdNode → Option (List MdNode) → MdNode
  | .mk t v o s _, c => .mk t v o s c

/-- Replacing the `value` field. -/
def MdNode.setValue : MdNode → String → MdNode
  | .mk t _ o s c, v => .mk t v o s c

/-- Modelled from the spec: `locStart` from `loc.js` (not part of this source
tree): the recorded start source position of a node, i.e.
`node.position.start.offset`. -/
def locStart (node : MdNode) : Nat := node.span.startOffset

/-- Modelled from the spec: `locEnd` from `loc.js` (not part of this source
tree): the recorded end source position of a node, i.e.
`node.position.end.offset`. -/
def locEnd (node : MdNode) : Nat := node.span.endOffset

/-- `isAutolink`: `true` iff the node is a link with exactly one child whose
recorded source span equals the link's own.  The input is an `Option` because
the source guards `node?.type` against a nullish node; the result is `none`
when the source would throw, i.e. when a link node has no `children` field at
all. -/
def isAutolink (node : Option MdNode) : Option Bool :=
  match node with
  | none => some false
  | some n =>
    if n.type ≠ "link" then some false
    else
      match n.children with
      | none => none
      | some [child] =>
        some (decide (locStart n = locStart child ∧ locEnd n = locEnd child))
      | some _ => some false

/-- The JavaScript `\s` character class used by the regex of
`getOrderedListItemInfo`. -/
def isJsWhitespace (c : Char) : Bool :=
  decide (c.toNat = 0x9 ∨ c.toNat = 0xA ∨ c.toNat = 0xB ∨ c.toNat = 0xC ∨
    c.toNat = 0xD ∨ c.toNat = 0x20 ∨ c.toNat = 0xA0 ∨ c.toNat = 0x1680 ∨
    (0x2000 ≤ c.toNat ∧ c.toNat ≤ 0x200A) ∨ c.toNat = 0x2028 ∨
    c.toNat = 0x2029 ∨ c.toNat = 0x202F ∨ c.toNat = 0x205F ∨
    c.toNat = 0x3000 ∨ c.toNat = 0xFEFF)

/-- The JavaScript `\d` character class. -/
def isAsciiDigit (c : Char) : Bool :=
  decide (0x30 ≤ c.toNat ∧ c.toNat ≤ 0x39)

/-- JavaScript `String.prototype.slice(start, end)` on a character list. -/
def sliceChars (l : List Char) (s e : Nat) : List Char :=
  (l.take e).drop s

/-- The destructured match result of `getOrderedListItemInfo`. -/
structure OrderedListItemInfo where
  numberText : List Char
  marker : Char
  leadingSpaces : List Char
deriving DecidableEq

/-- `getOrderedListItemInfo`: matches `/^\s*(\d+)(\.|\))(\s*)/` against the
source slice spanning the item's offsets and destructures the groups;
`none` models the TypeError thrown when the match fails (the source
destructures the match result unconditionally). -/
def getOrderedListItemInfo (orderListItem : MdNode) (originalText : List Char) :
    Option OrderedListItemInfo :=
  let sliced := sliceChars originalText orderListItem.span.startOffset
    orderListItem.span.endOffset
  let afterWs := sliced.dropWhile isJsWhitespace
  let numberText := afterWs.takeWhile isAsciiDigit
  match numberText, afterWs.drop numberText.length with
  | [], _ => none
  | _ :: _, marker :: rest =>
    if marker = '.' || marker = ')' then
      some ⟨numberText, marker, rest.takeWhile isJsWhitespace⟩
    else none
  | _ :: _, [] => none

/-- JavaScript `Number` on the digit-only `numberText` of an item info. -/
def toNumber (ds : List Char) : Nat :=
  ds.foldl (fun acc c => 10 * acc + (c.toNat - 0x30)) 0

/-- The options object of the printer, as far as
`hasGitDiffFriendlyOrderedList` reads it. -/
structure PrinterOptions where
  originalText : List Char

/-- `hasGitDiffFriendlyOrderedList`: decides whether an ordered list keeps its
source numbering; `none` models the exceptions thrown when `children` is
absent or an item slice does not match the ordered-item pattern. -/
def hasGitDiffFriendlyOrderedList (node : MdNode) (options : PrinterOptions) :
    Option Bool :=
  if !node.ordered then some false
  else
    match node.children with
    | none => none
    | some cs =>
      if cs.length < 2 then some false
      else
        match cs with
        | c0 :: c1 :: rest =>
          match getOrderedListItemInfo c0 options.originalText,
                getOrderedListItemInfo c1 options.originalText with
          | some i0, some i1 =>
            if toNumber i0.numberText = 0 ∧ cs.length > 2 then
              match rest with
              | c2 :: _ =>
                match getOrderedListItemInfo c2 options.originalText with
                | some i2 =>
                  some (decide (toNumber i1.numberText = 1 ∧
                    toNumber i2.numberText = 1))
                | none => none
              | [] => none
            else some (decide (toNumber i1.numberText = 1))
          | _, _ => none
        | _ => some false

/-- The decision rule of the spec, as a function of the list of item numbers:
fewer than two items give `false`; a leading 0 with more than two items
requires the second and the third number to be 1; otherwise the second
number must be 1. -/
def gitDiffFriendlyNumbers : List Nat → Bool
  | n0 :: n1 :: n2 :: _ => if n0 = 0 then (decide (n1 = 1) && decide (n2 = 1))
      else decide (n1 = 1)
  | [_, n1] => decide (n1 = 1)
  | _ => false

/-- The `children.map((child, index) => …)` step of `mapAst`, propagating a
failed (out-of-budget) recursive call. -/
def mapIdxOption (f : Nat → MdNode → Option MdNode) :
    Nat → List MdNode → Option (List MdNode)
  | _, [] => some []
  | i, c :: cs =>
    match f i c with
    | none => none
    | some b =>
      match mapIdxOption f (i + 1) cs with
      | none => none
      | some bs => some (b :: bs)

/-- The inner `preorder` of `mapAst`, with an explicit recursion budget: the
source recurses on the children of the handler's return value, so an
adversarial handler can make it diverge; `none` models running out of budget.
The handler receives the node, its index in its parent (`null`, i.e. `none`,
at the root) and the already-replaced ancestors nearest-first, and its return
value is shallow-copied; the copy's children are then replaced by their mapped
versions. -/
def mapAstAux (handler : MdNode → Option Nat → List MdNode → MdNode) :
    Nat → MdNode → Option Nat → List MdNode → Option MdNode
  | 0, _, _, _ => none
  | fuel + 1, node, index, parentStack =>
    let newNode := handler node index parentStack
    match newNode.children with
    | none => some newNode
    | some cs =>
      match mapIdxOption
          (fun i c => mapAstAux handler fuel c (some i) (newNode :: parentStack))
          0 cs with
      | none => none
      | some cs2 => some (newNode.setChildren (some cs2))

mutual

/-- The number of nodes of a tree, used as the recursion budget of `mapAst`. -/
def MdNode.size : MdNode → Nat
  | .mk _ _ _ _ none => 1
  | .mk _ _ _ _ (some cs) => 1 + MdNode.sizeList cs

/-- The number of nodes of a forest. -/
def MdNode.sizeList : List MdNode → Nat
  | [] => 0
  | c :: cs => MdNode.size c + MdNode.sizeList cs

end

theorem MdNode.size_le_sizeList {c : MdNode} :
    ∀ {cs : List MdNode}, c ∈ cs → MdNode.size c ≤ MdNode.sizeList cs := by
  intro cs
  induction cs with
  | nil => intro h; simp at h
  | cons a l ih =>
    intro h
    rcases List.mem_cons.mp h with h | h
    · subst h
      simp [MdNode.sizeList]
    · calc MdNode.size c ≤ MdNode.sizeList l := ih h
        _ ≤ MdNode.sizeList (a :: l) := by simp [MdNode.sizeList]

theorem MdNode.size_pos (t : MdNode) : 1 ≤ MdNode.size t := by
  cases t with
  | mk a b o s c =>
    cases c with
    | none => simp [MdNode.size]
    | some cs => simp [MdNode.size]

/-- `mapAst`, with a budget that suffices for every
children-preserving handler. -/
def mapAst (handler : MdNode → Option Nat → List MdNode → MdNode)
    (ast : MdNode) : Option MdNode :=
  mapAstAux handler (MdNode.size ast) ast none []

/-- The expected result of mapping the ancestor-recording handler of the C9
theorem: the handler rewrites each node's value to the concatenation, nearest
ancestor first, of each already-replaced ancestor's `type` followed by its
replaced `value`.  The accumulator `ancestorTraces` holds these
type-plus-replaced-value strings, nearest first; a node's own trace, prepended
for its children, is its unchanged `type` followed by its replaced value
`String.join ancestorTraces`.  Distinct `type`s separate nearest-first from
furthest-first stacks, and the replaced values separate the replaced ancestors
from the original ones. -/
def annotAncestorTrace (ancestorTraces : List String) : MdNode → MdNode
  | .mk t _ o s none => .mk t (String.join ancestorTraces) o s none
  | .mk t _ o s (some cs) => .mk t (String.join ancestorTraces) o s
      (some (cs.attach.map fun c =>
        annotAncestorTrace ((t ++ String.join ancestorTraces) :: ancestorTraces)
          c.1))
termination_by node => MdNode.size node
decreasing_by
  have h1 := MdNode.size_le_sizeList c.2
  simp only [MdNode.size]
  omega

/-- C7 counterexample: a link node whose `children` sequence is absent makes
`isAutolink` dereference `undefined` and fail (modelled as `none`), rather
than return `false` as the claim states. -/
theorem C7_counterexample :
    isAutolink (some (MdNode.mk "link" "" false ⟨0, 20⟩ none)) ≠ some false := by
  decide

/-- C7 (amended): `isAutolink` returns `false` for a nullish node, for any
node that is not a link (children present or not), and for a link node whose
children sequence is present but empty or of length at least two; for a link
with exactly one child it returns whether the child's recorded start and end
positions equal the link's own; a link node whose children sequence is absent
is outside the function's domain (it fails instead of returning `false`). -/
theorem C7_isAutolink_amended :
    isAutolink none = some false ∧
    (∀ n : MdNode, n.type ≠ "link" → isAutolink (some n) = some false) ∧
    (∀ (n : MdNode) (cs : List MdNode), n.type = "link" → n.children = some cs →
      cs.length ≠ 1 → isAutolink (some n) = some false) ∧
    (∀ (n child : MdNode), n.type = "link" → n.children = some [child] →
      isAutolink (some n) =
        some (decide (locStart n = locStart child ∧ locEnd n = locEnd child))) ∧
    (∀ n : MdNode, n.type = "link" → n.children = none →
      isAutolink (some n) = none) := by
  refine ⟨rfl, ?_, ?_, ?_, ?_⟩
  · intro n h
    simp [isAutolink, h]
  · intro n cs ht hc hlen
    have hne : ¬ (n.type ≠ "link") := by simp [ht]
    cases cs with
    | nil => simp [isAutolink, hne, hc]
    | cons a l =>
      cases l with
      | nil => simp at hlen
      | cons b l2 => simp [isAutolink, hne, hc]
  · intro n child ht hc
    have hne : ¬ (n.type ≠ "link") := by simp [ht]
    simp [isAutolink, hne, hc]
  · intro n ht hc
    have hne : ¬ (n.type ≠ "link") := by simp [ht]
    simp [isAutolink, hne, hc]

theorem C7_witness :
    isAutolink (some (MdNode.mk "link" "" false ⟨0, 20⟩
        (some [MdNode.mk "text" "" false ⟨0, 20⟩ none]))) = some true ∧
    isAutolink (some (MdNode.mk "link" "" false ⟨0, 20⟩
        (some [MdNode.mk "text" "" false ⟨1, 19⟩ none]))) = some false := by
  constructor
  · have h := C7_isAutolink_amended.2.2.2.1
      (MdNode.mk "link" "" false ⟨0, 20⟩
        (some [MdNode.mk "text" "" false ⟨0, 20⟩ none]))
      (MdNode.mk "text" "" false ⟨0, 20⟩ none) rfl rfl
    rw [h]
    rfl
  · have h := C7_isAutolink_amended.2.2.2.1
      (MdNode.mk "link" "" false ⟨0, 20⟩
        (some [MdNode.mk "text" "" false ⟨1, 19⟩ none]))
      (MdNode.mk "text" "" false ⟨1, 19⟩ none) rfl rfl
    rw [h]
    rfl

theorem dropWhile_append_all {α : Type} (p : α → Bool) {a : List α}
    (b : List α) (h : ∀ c ∈ a, p c = true) :
    (a ++ b).dropWhile p = b.dropWhile p := by
  induction a with
  | nil => rfl
  | cons x xs ih =>
    rw [List.cons_append, List.dropWhile_cons, if_pos (h x (by simp))]
    exact ih (fun c hc => h c (by simp [hc]))

theorem dropWhile_cons_neg {α : Type} (p : α → Bool) {x : α} (l : List α)
    (h : p x = false) : (x :: l).dropWhile p = x :: l := by
  rw [List.dropWhile_cons, if_neg (by simp [h])]

theorem takeWhile_append_stop {α : Type} (p : α → Bool) {a : List α} {x : α}
    (l : List α) (h : ∀ c ∈ a, p c = true) (hx : p x = false) :
    (a ++ x :: l).takeWhile p = a := by
  induction a with
  | nil => rw [List.nil_append, List.takeWhile_cons, if_neg (by simp [hx])]
  | cons y ys ih =>
    rw [List.cons_append, List.takeWhile_cons, if_pos (h y (by simp)),
      ih (fun c hc => h c (by simp [hc]))]

theorem drop_takeWhile_length {α : Type} (p : α → Bool) (l : List α) :
    l.drop (l.takeWhile p).length = l.dropWhile p := by
  have h := List.takeWhile_append_dropWhile (p := p) (l := l)
  calc l.drop (l.takeWhile p).length
      = (l.takeWhile p ++ l.dropWhile p).drop (l.takeWhile p).length := by rw [h]
    _ = l.dropWhile p := List.drop_left _ _

theorem digit_not_jsWhitespace {c : Char} (h : isAsciiDigit c = true) :
    isJsWhitespace c = false := by
  simp only [isAsciiDigit, decide_eq_true_eq] at h
  simp only [isJsWhitespace, decide_eq_false_iff_not]
  omega

theorem marker_not_digit {m : Char} (h : m = '.' ∨ m = ')') :
    isAsciiDigit m = false := by
  rcases h with h | h <;> subst h <;> decide

theorem getOrderedListItemInfo_of_match (item : MdNode)
    (originalText : List Char) (ws ds : List Char) (m : Char)
    (rest : List Char)
    (hs : sliceChars originalText item.span.startOffset item.span.endOffset =
      ws ++ ds ++ m :: rest)
    (hws : ∀ c ∈ ws, isJsWhitespace c = true)
    (hds : ds ≠ [])
    (hdig : ∀ c ∈ ds, isAsciiDigit c = true)
    (hm : m = '.' ∨ m = ')') :
    getOrderedListItemInfo item originalText =
      some ⟨ds, m, rest.takeWhile isJsWhitespace⟩ := by
  obtain ⟨d, ds', rfl⟩ : ∃ d ds', ds = d :: ds' := by
    cases ds with
    | nil => exact absurd rfl hds
    | cons d ds' => exact ⟨d, ds', rfl⟩
  have hafter : (sliceChars originalText item.span.startOffset
      item.span.endOffset).dropWhile isJsWhitespace = d :: (ds' ++ m :: rest) := by
    rw [hs, List.append_assoc, dropWhile_append_all _ _ hws, List.cons_append,
      dropWhile_cons_neg _ _ (digit_not_jsWhitespace (hdig d (by simp)))]
  have htake : (d :: (ds' ++ m :: rest)).takeWhile isAsciiDigit = d :: ds' := by
    have h := takeWhile_append_stop isAsciiDigit (a := d :: ds') rest hdig
      (marker_not_digit hm)
    rw [List.cons_append] at h
    exact h
  have hdrop : (d :: (ds' ++ m :: rest)).drop (d :: ds').length = m :: rest := by
    have h := List.drop_left (d :: ds') (m :: rest)
    rw [List.cons_append] at h
    exact h
  unfold getOrderedListItemInfo
  simp only [hafter, htake, hdrop]
  rw [if_pos (by rcases hm with h | h <;> simp [h])]

/-- C8: `getOrderedListItemInfo` succeeds exactly when the source slice
spanning the item's offsets begins with optional whitespace, then one or more
digits, then a marker character `.` or `)` (the trailing whitespace group is
`\s*` and can be empty); on success it returns the digit run, the marker, and
the whitespace following the marker, and on failure it returns no partial
result. -/
theorem C8_getOrderedListItemInfo (item : MdNode) (originalText : List Char) :
    ((getOrderedListItemInfo item originalText).isSome ↔
      ∃ ws ds m rest,
        sliceChars originalText item.span.startOffset item.span.endOffset =
          ws ++ ds ++ m :: rest ∧
        (∀ c ∈ ws, isJsWhitespace c = true) ∧ ds ≠ [] ∧
        (∀ c ∈ ds, isAsciiDigit c = true) ∧ (m = '.' ∨ m = ')')) ∧
    (∀ ws ds m rest,
      sliceChars originalText item.span.startOffset item.span.endOffset =
        ws ++ ds ++ m :: rest →
      (∀ c ∈ ws, isJsWhitespace c = true) → ds ≠ [] →
      (∀ c ∈ ds, isAsciiDigit c = true) → (m = '.' ∨ m = ')') →
      getOrderedListItemInfo item originalText =
        some ⟨ds, m, rest.takeWhile isJsWhitespace⟩) := by
  constructor
  · constructor
    · intro hsome
      rcases hnum : ((sliceChars originalText item.span.startOffset
          item.span.endOffset).dropWhile isJsWhitespace).takeWhile isAsciiDigit with
        _ | ⟨d, ds'⟩
      · simp only [getOrderedListItemInfo] at hsome
        rw [hnum] at hsome
        simp at hsome
      · rcases hdrop : ((sliceChars originalText item.span.startOffset
            item.span.endOffset).dropWhile isJsWhitespace).drop
              (d :: ds').length with _ | ⟨m0, rest0⟩
        · simp only [getOrderedListItemInfo] at hsome
          rw [hnum, hdrop] at hsome
          simp at hsome
        · simp only [getOrderedListItemInfo] at hsome
          rw [hnum, hdrop] at hsome
          have hsome2 : (if (decide (m0 = '.') || decide (m0 = ')')) = true then
              some (⟨d :: ds', m0, rest0.takeWhile isJsWhitespace⟩ :
                OrderedListItemInfo)
            else none).isSome = true := by simpa using hsome
          have hm : m0 = '.' ∨ m0 = ')' := by
            by_contra hmn
            rw [if_neg (by push_neg at hmn; simp [hmn.1, hmn.2])] at hsome2
            simp at hsome2
          refine ⟨(sliceChars originalText item.span.startOffset
              item.span.endOffset).takeWhile isJsWhitespace, d :: ds', m0, rest0,
            ?_, ?_, by simp, ?_, hm⟩
          · have h1 := List.takeWhile_append_dropWhile (p := isJsWhitespace)
              (l := sliceChars originalText item.span.startOffset item.span.endOffset)
            have h2 := List.takeWhile_append_dropWhile (p := isAsciiDigit)
              (l := (sliceChars originalText item.span.startOffset
                item.span.endOffset).dropWhile isJsWhitespace)
            have h3 := drop_takeWhile_length isAsciiDigit
              ((sliceChars originalText item.span.startOffset
                item.span.endOffset).dropWhile isJsWhitespace)
            rw [hnum] at h2 h3
            rw [hdrop] at h3
            rw [List.append_assoc, h3, h2, h1]
          · intro c hc
            exact List.mem_takeWhile_imp hc
          · intro c hc
            rw [← hnum] at hc
            exact List.mem_takeWhile_imp hc
    · rintro ⟨ws, ds, m, rest, hs, hws, hds, hdig, hm⟩
      rw [getOrderedListItemInfo_of_match item originalText ws ds m rest hs hws
        hds hdig hm]
      rfl
  · intro ws ds m rest hs hws hds hdig hm
    exact getOrderedListItemInfo_of_match item originalText ws ds m rest hs hws
      hds hdig hm

theorem C8_witness :
    getOrderedListItemInfo (MdNode.mk "listItem" "" false ⟨0, 9⟩ none)
        [' ', ' ', '1', '2', '.', ' ', 'f', 'o', 'o'] =
      some ⟨['1', '2'], '.', [' ']⟩ := by
  have h := (C8_getOrderedListItemInfo (MdNode.mk "listItem" "" false ⟨0, 9⟩ none)
    [' ', ' ', '1', '2', '.', ' ', 'f', 'o', 'o']).2
    [' ', ' '] ['1', '2'] '.' [' ', 'f', 'o', 'o']
    (by decide) (by decide) (by decide) (by decide) (by decide)
  exact h.trans (by decide)

/-- C4: `hasGitDiffFriendlyOrderedList` returns `false` for lists not marked
ordered and for ordered lists with fewer than two items; when the first
item's number is 0 and the list has more than two items it returns whether
the second and third items' numbers are both 1, and otherwise whether the
second item's number is 1 — i.e. it agrees with the spec-side decision
function `gitDiffFriendlyNumbers`, which maps `[0,1,1]` to `true`, `[0,1,2]`
to `false`, `[1,1]` to `true`, `[1,2]` to `false`, and a single number to
`false`. -/
theorem C4_hasGitDiffFriendlyOrderedList (node : MdNode)
    (options : PrinterOptions) :
    (node.ordered = false →
      hasGitDiffFriendlyOrderedList node options = some false) ∧
    (∀ cs, node.ordered = true → node.children = some cs → cs.length < 2 →
      hasGitDiffFriendlyOrderedList node options = some false) ∧
    (∀ c0 c1 i0 i1, node.ordered = true → node.children = some [c0, c1] →
      getOrderedListItemInfo c0 options.originalText = some i0 →
      getOrderedListItemInfo c1 options.originalText = some i1 →
      hasGitDiffFriendlyOrderedList node options =
        some (gitDiffFriendlyNumbers
          [toNumber i0.numberText, toNumber i1.numberText])) ∧
    (∀ c0 c1 c2 rest i0 i1 i2, node.ordered = true →
      node.children = some (c0 :: c1 :: c2 :: rest) →
      getOrderedListItemInfo c0 options.originalText = some i0 →
      getOrderedListItemInfo c1 options.originalText = some i1 →
      getOrderedListItemInfo c2 options.originalText = some i2 →
      hasGitDiffFriendlyOrderedList node options =
        some (gitDiffFriendlyNumbers [toNumber i0.numberText,
          toNumber i1.numberText, toNumber i2.numberText])) ∧
    (gitDiffFriendlyNumbers [0, 1, 1] = true ∧
     gitDiffFriendlyNumbers [0, 1, 2] = false ∧
     gitDiffFriendlyNumbers [1, 1] = true ∧
     gitDiffFriendlyNumbers [1, 2] = false ∧
     gitDiffFriendlyNumbers [5] = false) := by
  refine ⟨?_, ?_, ?_, ?_, by decide⟩
  · intro h
    simp [hasGitDiffFriendlyOrderedList, h]
  · intro cs hord hch hlen
    simp [hasGitDiffFriendlyOrderedList, hord, hch, hlen]
  · intro c0 c1 i0 i1 hord hch h0 h1
    simp [hasGitDiffFriendlyOrderedList, hord, hch, h0, h1,
      gitDiffFriendlyNumbers]
  · intro c0 c1 c2 rest i0 i1 i2 hord hch h0 h1 h2
    have hlen2 : ¬ ((c0 :: c1 :: c2 :: rest).length < 2) := by
      simp only [List.length_cons]
      omega
    have hgt : (c0 :: c1 :: c2 :: rest).length > 2 := by
      simp only [List.length_cons]
      omega
    by_cases hz : toNumber i0.numberText = 0
    · simp [hasGitDiffFriendlyOrderedList, hord, hch, h0, h1, h2, hz, hlen2,
        hgt, gitDiffFriendlyNumbers, Bool.decide_and]
    · simp [hasGitDiffFriendlyOrderedList, hord, hch, h0, h1, h2, hz, hlen2,
        hgt, gitDiffFriendlyNumbers]

theorem C4_witness :
    hasGitDiffFriendlyOrderedList
      (MdNode.mk "list" "" true ⟨0, 9⟩
        (some [MdNode.mk "listItem" "" false ⟨0, 4⟩ none,
               MdNode.mk "listItem" "" false ⟨5, 9⟩ none]))
      ⟨['1', '.', ' ', 'a', '\n', '1', '.', ' ', 'b']⟩ = some true := by
  have h := (C4_hasGitDiffFriendlyOrderedList
    (MdNode.mk "list" "" true ⟨0, 9⟩
      (some [MdNode.mk "listItem" "" false ⟨0, 4⟩ none,
             MdNode.mk "listItem" "" false ⟨5, 9⟩ none]))
    ⟨['1', '.', ' ', 'a', '\n', '1', '.', ' ', 'b']⟩).2.2.1
    (MdNode.mk "listItem" "" false ⟨0, 4⟩ none)
    (MdNode.mk "listItem" "" false ⟨5, 9⟩ none)
    ⟨['1'], '.', [' ']⟩ ⟨['1'], '.', [' ']⟩ rfl rfl (by decide) (by decide)
  exact h.trans (by decide)

theorem mapIdxOption_map (f : Nat → MdNode → Option MdNode) (g : MdNode → MdNode)
    (cs : List MdNode) (h : ∀ i c, c ∈ cs → f i c = some (g c)) :
    ∀ i0, mapIdxOption f i0 cs = some (cs.map g) := by
  induction cs with
  | nil => intro i0; rfl
  | cons c cs' ih =>
    intro i0
    have hc := h i0 c (by simp)
    have hrec := ih (fun i c' hc' => h i c' (by simp [hc'])) (i0 + 1)
    simp [mapIdxOption, hc, hrec]

theorem mapAstAux_id : ∀ (fuel : Nat) (t : MdNode) (idx : Option Nat)
    (stk : List MdNode), MdNode.size t ≤ fuel →
    mapAstAux (fun node _ _ => node) fuel t idx stk = some t := by
  intro fuel
  induction fuel with
  | zero =>
    intro t idx stk h
    have := MdNode.size_pos t
    omega
  | succ fuel ih =>
    intro t idx stk h
    cases t with
    | mk a b o s c =>
      cases c with
      | none => simp [mapAstAux, MdNode.children]
      | some cs =>
        have hmap : mapIdxOption (fun i c =>
            mapAstAux (fun node _ _ => node) fuel c (some i)
              (MdNode.mk a b o s (some cs) :: stk)) 0 cs = some (cs.map id) := by
          apply mapIdxOption_map
          intro i c hc
          have h1 := MdNode.size_le_sizeList hc
          have h2 : MdNode.size (MdNode.mk a b o s (some cs)) =
              1 + MdNode.sizeList cs := rfl
          exact ih c (some i) _ (by omega)
        simp [mapAstAux, MdNode.children, hmap, MdNode.setChildren]

theorem mapAstAux_trace : ∀ (fuel : Nat) (t : MdNode) (idx : Option Nat)
    (stk : List MdNode), MdNode.size t ≤ fuel →
    mapAstAux (fun node _ parentStack =>
        node.setValue (String.join (parentStack.map fun a => a.type ++ a.value)))
      fuel t idx stk =
    some (annotAncestorTrace (stk.map fun a => a.type ++ a.value) t) := by
  intro fuel
  induction fuel with
  | zero =>
    intro t idx stk h
    have := MdNode.size_pos t
    omega
  | succ fuel ih =>
    intro t idx stk h
    cases t with
    | mk a b o s c =>
      cases c with
      | none =>
        simp [mapAstAux, MdNode.children, MdNode.setValue, annotAncestorTrace]
      | some cs =>
        have hmap : mapIdxOption (fun i c =>
            mapAstAux (fun node _ parentStack =>
                node.setValue (String.join
                  (parentStack.map fun a => a.type ++ a.value)))
              fuel c (some i)
              ((MdNode.mk a b o s (some cs)).setValue
                  (String.join (stk.map fun x => x.type ++ x.value)) :: stk))
              0 cs =
            some (cs.map (annotAncestorTrace
              ((a ++ String.join (stk.map fun x => x.type ++ x.value)) ::
                stk.map fun x => x.type ++ x.value))) := by
          apply mapIdxOption_map
          intro i c hc
          have h1 := MdNode.size_le_sizeList hc
          have h2 : MdNode.size (MdNode.mk a b o s (some cs)) =
              1 + MdNode.sizeList cs := rfl
          have h3 := ih c (some i)
            ((MdNode.mk a b o s (some cs)).setValue
              (String.join (stk.map fun x => x.type ++ x.value)) :: stk)
            (by omega)
          simpa [MdNode.setValue, MdNode.type, MdNode.value] using h3
        simp only [MdNode.setValue] at hmap
        simp only [mapAstAux, MdNode.setValue, MdNode.children]
        rw [hmap]
        simp only [annotAncestorTrace, MdNode.setChildren]
        rw [List.attach_map_val cs
          (annotAncestorTrace
            ((a ++ String.join (stk.map fun x => x.type ++ x.value)) ::
              stk.map fun x => x.type ++ x.value))]

/-- C9: `mapAst` is pure and preorder: mutation is not representable in this
embedding (the input tree is a value and trivially unchanged), and mapping the
identity visit function over any tree returns a structurally equal tree;
moreover the visit function receives the already-replaced ancestors, nearest
ancestor first.  That last part is witnessed by a handler that rewrites each
node's value to the join of `type ++ value` over its ancestor stack: the
result equals `annotAncestorTrace [] t`, in which each recorded ancestor
contribution uses the ancestor's replaced value (not its original one) and the
contributions appear nearest ancestor first — an implementation passing the
stack furthest-first, or passing unreplaced ancestors, would give a different
tree whenever types or values differ. -/
theorem C9_mapAst_pure :
    (∀ t : MdNode, mapAst (fun node _ _ => node) t = some t) ∧
    (∀ t : MdNode,
      mapAst (fun node _ parentStack =>
        node.setValue (String.join (parentStack.map fun a => a.type ++ a.value)))
        t =
      some (annotAncestorTrace [] t)) := by
  constructor
  · intro t
    exact mapAstAux_id (MdNode.size t) t none [] (Nat.le_refl _)
  · intro t
    have h := mapAstAux_trace (MdNode.size t) t none [] (Nat.le_refl _)
    simpa using h
